import Mathlib

/-!
Verification of the markov-discord generation engine against its
specification.  The definitions below are a shallow embedding of
`src/markov-store.ts` and `src/train.ts`.  JavaScript numbers are modelled
as rationals; every concrete input used in the theorems keeps all
intermediate values dyadic with small numerators, where IEEE-754 double
arithmetic is exact, so the rational model computes exactly what the
JavaScript code computes on those inputs.
-/

set_option autoImplicit false

namespace MarkovSpec

/-- One weighted suffix, mirroring the `{ word, weight }` records stored in
`PrefixEntry.suffixes` in markov-store.ts. -/
structure SuffixEntry where
  word : String
  weight : ℚ
  deriving Repr, DecidableEq, Inhabited

/-- One cell of the alias table, mirroring `AliasEntry` in markov-store.ts:
`word` is the suffix word of the cell, `aliasIdx` embeds the `alias` index
field, and `weight` the stored threshold. -/
structure AliasEntry where
  word : String
  aliasIdx : Nat
  weight : ℚ
  deriving Repr, DecidableEq, Inhabited

/-- A prefix entry, mirroring `PrefixEntry` in markov-store.ts.  The prefix
key field is called `pfx` here; `aliasTable` is `none` when the optional
field is absent. -/
structure PrefixEntry where
  pfx : String
  suffixes : List SuffixEntry
  aliasTable : Option (List AliasEntry)
  totalWeight : ℚ
  deriving Repr, DecidableEq, Inhabited

/-- The `chains` map of `MarkovStore`, modelled as an association list in
JS `Map` insertion order with unique keys. -/
abbrev Chains := List (String × PrefixEntry)

/-- `this.chains.get(key)` on the model. -/
def findEntry (c : Chains) (k : String) : Option PrefixEntry :=
  (c.find? (fun p => p.1 = k)).map (fun p => p.2)

/-- `this.chains.set(key, v)`: replace the binding in place when the key is
present, append otherwise (JS `Map` insertion-order semantics). -/
def setEntry (c : Chains) (k : String) (v : PrefixEntry) : Chains :=
  if c.any (fun p => p.1 = k) then
    c.map (fun p => if p.1 = k then (k, v) else p)
  else
    c ++ [(k, v)]

/-- `this.chains.delete(key)` on the model. -/
def removeEntry (c : Chains) (k : String) : Chains :=
  c.filter (fun p => ¬ p.1 = k)

/-! ## Alias table construction (`buildAliasTable`, markov-store.ts 101-156)

The JS `small` / `large` arrays are used as stacks (`push` / `pop`), so they
are modelled as lists whose head is the stack top; pushing the initial
indices `0..n-1` in order therefore yields the reversed filtered range.
The `while` loop of lines 130-142 pops one index from each stack, redirects
the alias of the small cell, updates `scaledWeights` for the large cell,
and pushes that cell back on one of the stacks.  Note that the loop writes
the updated residual only into `scaledWeights`; the `weight` field of the
already-materialised `aliasTable` cells (set at lines 122-128 from the
initial scaled weights) is never updated, and the two cleanup loops of
lines 145-153 also write only into `scaledWeights`, which is discarded. -/

/-- The redistribution loop of `buildAliasTable` (markov-store.ts 130-142).
Arguments: iteration fuel, small stack, large stack, `scaledWeights`,
`aliasTable`; the result is the final `aliasTable` (the only data the JS
function returns).  Every iteration shrinks the combined stack size by
exactly one and the loop stops when either stack empties, so the combined
initial stack size is an exact bound on the iteration count; the fuel is
only a structural-recursion device and `aliasLoop_fuel_irrelevant` below
shows any fuel at least that bound computes the JS fixpoint. -/
def aliasLoop : Nat → List Nat → List Nat → List ℚ → List AliasEntry → List AliasEntry
  | _, [], _, _, t => t
  | _, _ :: _, [], _, t => t
  | 0, _ :: _, _ :: _, _, t => t
  | fuel + 1, l :: smalls, g :: larges, sw, t =>
    let t' := t.set l { t.getD l default with aliasIdx := g }
    let swg := sw.getD g 0 + sw.getD l 0 - 1
    let sw' := sw.set g swg
    if swg < 1 then
      aliasLoop fuel (g :: smalls) larges sw' t'
    else
      aliasLoop fuel smalls (g :: larges) sw' t'

/-- The `scaledWeights` local of `buildAliasTable` (markov-store.ts
111-113): each weight scaled by `(w / totalWeight) * n`. -/
def scaledWeightsOf (suffixes : List SuffixEntry) : List ℚ :=
  let totalWeight := suffixes.foldl (fun sum s => sum + s.weight) (0 : ℚ)
  suffixes.map (fun s => s.weight / totalWeight * (suffixes.length : ℚ))

/-- The `small` stack after the initial partition (markov-store.ts
112-119), top of stack first. -/
def smallStack (suffixes : List SuffixEntry) : List Nat :=
  ((List.range suffixes.length).filter
    (fun i => (scaledWeightsOf suffixes).getD i 0 < 1)).reverse

/-- The `large` stack after the initial partition (markov-store.ts
112-119), top of stack first. -/
def largeStack (suffixes : List SuffixEntry) : List Nat :=
  ((List.range suffixes.length).filter
    (fun i => ¬ (scaledWeightsOf suffixes).getD i 0 < 1)).reverse

/-- The `aliasTable` array as first materialised (markov-store.ts
122-128): self-aliases and the initial scaled weight as threshold. -/
def initTable (suffixes : List SuffixEntry) : List AliasEntry :=
  (List.range suffixes.length).map (fun i =>
    { word := (suffixes.getD i default).word
      aliasIdx := i
      weight := (scaledWeightsOf suffixes).getD i 0 : AliasEntry })

/-- `buildAliasTable` (markov-store.ts 101-156): partition, initialise,
then run the redistribution loop.  The JS locals are the named
definitions above. -/
def buildAliasTable (suffixes : List SuffixEntry) : List AliasEntry :=
  if suffixes.length = 0 then []
  else
    aliasLoop ((smallStack suffixes).length + (largeStack suffixes).length)
      (smallStack suffixes) (largeStack suffixes)
      (scaledWeightsOf suffixes) (initTable suffixes)

/-! ## Sampling (`sampleFromAliasTable`, markov-store.ts 161-170)

The two `Math.random()` draws are passed in as rational parameters
`u1 u2 ∈ [0,1)`.  A JS out-of-bounds array read yields `undefined`, so the
subsequent `.word` access would throw a `TypeError`; reads are therefore
modelled with `List.get?` and an explicit error on `none`, alongside the
explicit `Empty alias table` throw of line 162. -/

def sampleFromAliasTable (t : List AliasEntry) (u1 u2 : ℚ) :
    Except String String :=
  if t.length = 0 then Except.error "Empty alias table"
  else
    let n := t.length
    let i := (Int.floor (u1 * n)).toNat
    match t.get? i with
    | none => Except.error "TypeError"
    | some entry =>
      if u2 < entry.weight then Except.ok entry.word
      else
        match t.get? entry.aliasIdx with
        | none => Except.error "TypeError"
        | some aliased => Except.ok aliased.word

/-- Exact distribution of `sampleFromAliasTable` over uniform draws: the
probability that a uniform `u2 ∈ [0,1)` falls below a threshold `q` is
`max 0 (min 1 q)`. -/
def clamp01 (q : ℚ) : ℚ := max 0 (min 1 q)

/-- Probability mass that one cell contributes to word `w` when its index
is drawn: the clamped threshold if the cell carries `w`, plus the
complement if the aliased cell carries `w`. -/
def cellMass (t : List AliasEntry) (w : String) (c : AliasEntry) : ℚ :=
  (if c.word = w then clamp01 c.weight else 0) +
    (if ((t.getD c.aliasIdx default).word = w) then 1 - clamp01 c.weight else 0)

/-- Exact probability that sampling from table `t` with uniform draws
returns word `w`. -/
def sampleProb (t : List AliasEntry) (w : String) : ℚ :=
  (t.map (cellMass t w)).sum / t.length

/-- Operational check of the sampling distribution on a finite grid: for
each cell index `i` the sampler is run with `u1 = i / n` (which selects
cell `i` exactly) and with `u2 ∈ {0, 1/2}`.  When every threshold in the
table is an integer multiple of `1/2`, the `2 n` grid outcomes are
exactly equiprobable under the uniform draws, so outcome counts over the
grid give the exact sampling distribution in units of `1 / (2 n)`. -/
def aliasGrid (t : List AliasEntry) : List (Except String String) :=
  (List.range t.length).flatMap (fun i =>
    [(0 : ℚ), 1 / 2].map (fun u2 =>
      sampleFromAliasTable t ((i : ℚ) / t.length) u2))

/-! ## Mutation (`addPrefix`, markov-store.ts 175-204) -/

/-- The suffix-merge step of `addPrefix` (markov-store.ts 188-193): bump
the weight of the first entry whose word matches, or push a new entry at
the end. -/
def updateSuffixes : List SuffixEntry → String → ℚ → List SuffixEntry
  | [], w, wt => [{ word := w, weight := wt }]
  | s :: rest, w, wt =>
    if s.word = w then { s with weight := s.weight + wt } :: rest
    else s :: updateSuffixes rest w wt

/-- `addPrefix(prefix, suffix, weight)` (markov-store.ts 175-204): fetch or
create the entry, merge the suffix, add the weight to `totalWeight`, and
eagerly rebuild the alias table whenever the suffix list now has more than
one element.  The `dirty` flag and debounced save trigger are modelled
separately (see `saveOps`). -/
def addPrefix (c : Chains) (pfx sfx : String) (weight : ℚ) : Chains :=
  let entry :=
    match findEntry c pfx with
    | none => { pfx := pfx, suffixes := [], aliasTable := none, totalWeight := 0 : PrefixEntry }
    | some e => e
  let entry := { entry with suffixes := updateSuffixes entry.suffixes sfx weight }
  let entry := { entry with totalWeight := entry.totalWeight + weight }
  let entry :=
    if 1 < entry.suffixes.length then
      { entry with aliasTable := some (buildAliasTable entry.suffixes) }
    else entry
  setEntry c pfx entry

/-- `clear()` (markov-store.ts 278-282): empty the chains map. -/
def clearChains (_ : Chains) : Chains := []

/-! ## Sampling a prefix (`getNext`, markov-store.ts 209-233)

The `Math.random()` draws are the parameters `u1 u2`; the alias path uses
both while the fallback path uses only `u1`.  The JS function can throw
(via `sampleFromAliasTable`), hence the `Except` result. -/

/-- The fallback weighted-selection loop of `getNext` (markov-store.ts
224-229): subtract each weight from the running value and return the first
word at which it drops to zero or below; `none` when the list is
exhausted. -/
def fallbackSelect : List SuffixEntry → ℚ → Option String
  | [], _ => none
  | s :: rest, r => if r - s.weight ≤ 0 then some s.word else fallbackSelect rest (r - s.weight)

/-- `getNext(prefix)` (markov-store.ts 209-233). -/
def getNext (c : Chains) (pfx : String) (u1 u2 : ℚ) : Except String (Option String) :=
  match findEntry c pfx with
  | none => Except.ok none
  | some entry =>
    match entry.suffixes with
    | [] => Except.ok none
    | s0 :: _ =>
      match entry.aliasTable with
      | some t => (sampleFromAliasTable t u1 u2).map some
      | none =>
        let r := u1 * entry.totalWeight
        match fallbackSelect entry.suffixes r with
        | some w => Except.ok (some w)
        | none => Except.ok (some s0.word)

/-! ## Generation (`generate`, markov-store.ts 238-254)

One RNG pair is supplied per loop iteration through `rng`.  The JS loop
appends `getNext(currentPrefix)` and then sets the next prefix to the
join of `result.slice(-2)`, the last two words of the output, for every
configured state size. -/

/-- JS `s.split(char)` for the single-space separator, structurally
recursive so concrete instances reduce: the accumulator holds the current
fragment reversed.  Like the JS original, it keeps empty fragments and
maps the empty string to `[""]`. -/
def splitSpacesAux : List Char → List Char → List String
  | [], acc => [String.mk acc.reverse]
  | ch :: rest, acc =>
    if ch = ' ' then String.mk acc.reverse :: splitSpacesAux rest []
    else splitSpacesAux rest (ch :: acc)

/-- JS `s.split(char)` with separator one space, as used by
`generate` (markov-store.ts 239) and the trainer tokenizer. -/
def jsSplitSpace (s : String) : List String := splitSpacesAux s.data []

/-- JS `words.join(char)` with separator one space (markov-store.ts 250,
train.ts 53). -/
def jsJoinSpace : List String → String
  | [] => ""
  | [s] => s
  | s :: rest => s ++ " " ++ jsJoinSpace rest

/-- The generation loop, parametric in the window size used for the next
prefix.  `generate` instantiates `window` with the hard-coded `2` of
markov-store.ts line 249; `generateSpec` below instantiates it with the
configured state size, following the specification text. -/
def genLoop (c : Chains) (rng : Nat → ℚ × ℚ) (window : Nat) :
    Nat → Nat → List String → String → Except String (List String)
  | 0, _, result, _ => Except.ok result
  | fuel + 1, i, result, cur =>
    match getNext c cur (rng i).1 (rng i).2 with
    | Except.error e => Except.error e
    | Except.ok none => Except.ok result
    | Except.ok (some w) =>
      let result := result ++ [w]
      let cur := jsJoinSpace (result.drop (result.length - window))
      genLoop c rng window fuel (i + 1) result cur

/-- `generate(prefix, maxLength)` (markov-store.ts 238-254): the seed is
split on single spaces, and the sliding window is the hard-coded last two
words (`result.slice(-2)`, line 249). -/
def generate (c : Chains) (pfx : String) (maxLength : Nat) (rng : Nat → ℚ × ℚ) :
    Except String (List String) :=
  genLoop c rng 2 maxLength 0 (jsSplitSpace pfx) pfx

/-- Modelled from the spec: generation whose next lookup prefix is formed
from the last `stateSize` tokens of the output, as section 4.3 of the
specification describes; used only to compare against `generate`. -/
def generateSpec (stateSize : Nat) (c : Chains) (pfx : String) (maxLength : Nat)
    (rng : Nat → ℚ × ℚ) : Except String (List String) :=
  genLoop c rng stateSize maxLength 0 (jsSplitSpace pfx) pfx

/-! ## Training tokenization (`addDataToMarkovStore`, train.ts 47-57)

`messageData.string.trim().split(/\s+/).filter(w => w.length > 0)` is
modelled for single-space-separated input as splitting on spaces and
dropping empty fragments, which is what the JS expression computes on all
the inputs used here.  The loop emits one `addPrefix` per sliding window
of `stateSize` words. -/

def tokenize (message : String) : List String :=
  (jsSplitSpace message).filter (fun w => ¬ w = "")

/-- `addDataToMarkovStore` (train.ts 47-57): for each `i` below
`words.length - stateSize`, insert the prefix `words[i..i+stateSize)`
joined by spaces with suffix `words[i+stateSize]` and weight 1. -/
def addDataToMarkovStore (c : Chains) (stateSize : Nat) (message : String) : Chains :=
  let words := tokenize message
  (List.range (words.length - stateSize)).foldl
    (fun ch i =>
      addPrefix ch (jsJoinSpace ((words.drop i).take stateSize))
        (words.getD (i + stateSize) "") 1)
    c

/-! ## Persistence (`save` / `load`, markov-store.ts 53-95)

The snapshot contents are modelled by a small JSON value type, with
`JSON.stringify` semantics: object keys appear in property insertion
order and an absent optional field is simply omitted. -/

/-- JSON values, as produced by `JSON.parse` / consumed by
`JSON.stringify`.  Numbers are rationals (see the file header). -/
inductive JVal where
  | null : JVal
  | bool (b : Bool) : JVal
  | num (q : ℚ) : JVal
  | str (s : String) : JVal
  | arr (l : List JVal) : JVal
  | obj (l : List (String × JVal)) : JVal
  deriving Repr, Inhabited

/-- Whether a serialized object carries a given key. -/
def hasKey (k : String) : JVal → Bool
  | JVal.obj l => l.any (fun p => p.1 = k)
  | _ => false

/-- `JSON.stringify` of one suffix record. -/
def suffixToJson (s : SuffixEntry) : JVal :=
  JVal.obj [("word", JVal.str s.word), ("weight", JVal.num s.weight)]

/-- `JSON.stringify` of one alias-table cell (the source field name of
`aliasIdx` is `alias`). -/
def aliasEntryToJson (a : AliasEntry) : JVal :=
  JVal.obj [("word", JVal.str a.word), ("alias", JVal.num (a.aliasIdx : ℚ)),
    ("weight", JVal.num a.weight)]

/-- `JSON.stringify` of a `PrefixEntry`.  The object-literal fields
`prefix`, `suffixes`, `totalWeight` come first; the `aliasTable` property,
assigned later (markov-store.ts line 199), is serialized last and only
when present, since `JSON.stringify` skips absent fields. -/
def entryToJson (e : PrefixEntry) : JVal :=
  JVal.obj
    ([("prefix", JVal.str e.pfx),
      ("suffixes", JVal.arr (e.suffixes.map suffixToJson)),
      ("totalWeight", JVal.num e.totalWeight)] ++
      (match e.aliasTable with
       | none => []
       | some t => [("aliasTable", JVal.arr (t.map aliasEntryToJson))]))

/-- `JSON.stringify(Object.fromEntries(this.chains), null, 0)`
(markov-store.ts 87-88). -/
def storeToJson (c : Chains) : JVal :=
  JVal.obj (c.map (fun p => (p.1, entryToJson p.2)))

/-- Filesystem operations a store method can perform. -/
inductive FsOp where
  | write (path : String) (contents : JVal) : FsOp
  | rename (src : String) (dst : String) : FsOp
  deriving Repr

/-- The file operations performed when the debounced `save` timer fires
(markov-store.ts 86-91): a single `fs.writeFile` of the serialized map to
`storePath`.  No temporary file and no rename appear in the source. -/
def saveOps (storePath : String) (c : Chains) : List FsOp :=
  [FsOp.write storePath (storeToJson c)]

/-- Modelled from the spec: the write-to-temp-then-rename save that
sections 3 and 4.3 of the specification describe; used only to compare
against `saveOps`. -/
def saveOpsSpec (storePath : String) (c : Chains) : List FsOp :=
  [FsOp.write (storePath ++ ".tmp") (storeToJson c),
   FsOp.rename (storePath ++ ".tmp") storePath]

/-- `Object.entries` on a parsed JSON value, as used by `load`
(markov-store.ts 59): objects yield their fields, arrays and strings
yield index-keyed elements (characters become one-character strings),
primitives yield nothing.  `Object.entries(null)` throws, which `load`
catches; that case is handled in `loadChains` directly. -/
def jsEntries : JVal → List (String × JVal)
  | JVal.obj l => l
  | JVal.arr l => l.enum.map (fun p => (toString p.1, p.2))
  | JVal.str s => s.data.enum.map (fun p => (toString p.1, JVal.str (String.mk [p.2])))
  | _ => []

/-- The possible outcomes of `fs.readFile` + `JSON.parse` in `load`
(markov-store.ts 55-56). -/
inductive LoadInput where
  | noFile : LoadInput
  | ioError : LoadInput
  | parsed (v : JVal) : LoadInput

/-- The chains contents after `load` (markov-store.ts 53-71), as raw
parsed values: a read or parse failure is caught, leaving the previous
contents (`old`) in place; a successful parse clears the map and installs
`Object.entries` of the parsed value verbatim, with no validation.
`JSON.parse` of `null` reaches the clear but then throws inside
`Object.entries`, leaving the map empty. -/
def loadChainsRaw (old : List (String × JVal)) : LoadInput → List (String × JVal)
  | LoadInput.noFile => old
  | LoadInput.ioError => old
  | LoadInput.parsed v => jsEntries v

/-- Number of prefixes `getStats` reports after loading a fresh store
(`this.chains.size`, markov-store.ts 268). -/
def prefixCountAfterLoad (inp : LoadInput) : Nat :=
  (loadChainsRaw [] inp).length

/-- `load` on a file that parses to a well-typed snapshot object: the
parsed entries are installed into the cleared map exactly as read, alias
tables included (markov-store.ts 58-61); nothing is re-derived. -/
def loadChains (parsed : List (String × PrefixEntry)) : Chains :=
  parsed.foldl (fun ch kv => setEntry ch kv.1 kv.2) []

/-! ## The advisory training lock (`acquireTrainingLock`, train.ts 215-241)

The filesystem and process table are abstracted into a `LockWorld`:
`lockContent` is the content of `<configDir>/<tenantId>_training.lock`
when the file exists, `alive` tells whether a PID designates a live
process (`process.kill(pid, 0)` succeeding), and `myPid` is the calling
process id.  Filesystem operations themselves are assumed to succeed;
`parseInt` is modelled on its leading-digits behavior, and a content
with no leading digit makes `process.kill` throw on `NaN`, which the
source catches in the same branch as a dead process. -/

structure LockWorld where
  lockContent : Option String
  alive : Nat → Bool
  myPid : Nat

/-- JS `parseInt` restricted to the nonnegative decimal contents this
program writes: the value of the leading digit run, `none` for `NaN`. -/
def jsParseInt (s : String) : Option Nat :=
  let ds := s.data.takeWhile (fun ch => ch.isDigit)
  if ds.isEmpty then none
  else some (ds.foldl (fun n ch => n * 10 + (ch.toNat - ('0').toNat)) 0)

/-- `acquireTrainingLock` (train.ts 215-241).  Returns the success flag
and the lock-file content afterwards: exclusive create when absent;
on collision, probe the recorded PID and either fail (owner alive) or
unlink and rewrite with the caller PID (owner dead or content
unparseable). -/
def acquireTrainingLock (w : LockWorld) : Bool × Option String :=
  match w.lockContent with
  | none => (true, some (toString w.myPid))
  | some content =>
    match jsParseInt content with
    | some pid =>
      if w.alive pid then (false, some content)
      else (true, some (toString w.myPid))
    | none => (true, some (toString w.myPid))

/-! ## Invariants and reachable stores -/

/-- The totalWeight bookkeeping invariant of a `PrefixEntry`: the stored
total equals the sum of the suffix weights. -/
def entryWf (e : PrefixEntry) : Prop :=
  e.totalWeight = (e.suffixes.map SuffixEntry.weight).sum

/-- `entryWf` for every entry of the chains map. -/
def storeWf (c : Chains) : Prop := ∀ kv ∈ c, entryWf kv.2

/-- The structural invariant `addPrefix` maintains: a nonempty suffix list
and an alias table that is present, and freshly built from the current
suffix list, exactly when the suffix list has more than one element. -/
def entryInv (e : PrefixEntry) : Prop :=
  ¬ e.suffixes = [] ∧
    e.aliasTable =
      (if 1 < e.suffixes.length then some (buildAliasTable e.suffixes) else none)

/-- `entryInv` for every entry of the chains map. -/
def storeInv (c : Chains) : Prop := ∀ kv ∈ c, entryInv kv.2

/-- Stores built only through insert operations with weight at least 1,
starting from the empty store. -/
inductive Reachable : Chains → Prop where
  | empty : Reachable []
  | step (c : Chains) (p s : String) (w : ℚ) (hw : 1 ≤ w) (h : Reachable c) :
      Reachable (addPrefix c p s w)

/-- Whether a filesystem operation is a rename. -/
def FsOp.isRename : FsOp → Bool
  | FsOp.write _ _ => false
  | FsOp.rename _ _ => true

/-- Look up a key of a serialized JSON object. -/
def getKey (k : String) : JVal → Option JVal
  | JVal.obj l => (l.find? (fun p => p.1 = k)).map (fun p => p.2)
  | _ => none

/-! ## Concrete stores used in the theorems -/

/-- The suffix list exhibiting the alias-table defect: weights 3, 3, 1, 1.
Every intermediate value of `buildAliasTable` on it is a small dyadic
rational, so IEEE-754 evaluation of the source is exact here. -/
def bugSuffixes : List SuffixEntry :=
  [⟨"a", 3⟩, ⟨"b", 3⟩, ⟨"c", 1⟩, ⟨"d", 1⟩]

/-- A store holding one prefix with the two suffixes `a` and `b`, built
through two inserts. -/
def chainAB : Chains := addPrefix (addPrefix [] "p" "a" 1) "p" "b" 1

/-- The store trained with `stateSize = 1` on the message `a b c`:
single-token prefixes `a ↦ b` and `b ↦ c`. -/
def lineChains : Chains := addDataToMarkovStore [] 1 "a b c"

/-- A constant RNG stream. -/
def rngZero : Nat → ℚ × ℚ := fun _ => (0, 0)

/-! # Theorems -/

/-- Any fuel at least the combined stack size yields the same table, so
`buildAliasTable` computes the exact fixpoint of the JS `while` loop. -/
theorem aliasLoop_fuel_irrelevant :
    ∀ (f1 f2 : Nat) (s l : List Nat) (sw : List ℚ) (t : List AliasEntry),
      s.length + l.length ≤ f1 → s.length + l.length ≤ f2 →
      aliasLoop f1 s l sw t = aliasLoop f2 s l sw t := by
  intro f1
  induction f1 with
  | zero =>
    intro f2 s l sw t h1 _
    match s, l with
    | [], _ => cases f2 <;> rfl
    | _ :: _, [] => cases f2 <;> rfl
    | _ :: _, _ :: _ => simp at h1
  | succ f ih =>
    intro f2 s l sw t h1 h2
    match s, l with
    | [], _ => cases f2 <;> rfl
    | _ :: _, [] => cases f2 <;> rfl
    | a :: smalls, g :: larges =>
      cases f2 with
      | zero => simp at h2
      | succ f2 =>
        simp only [aliasLoop]
        split
        · exact ih f2 (g :: smalls) larges _ _
            (by simp only [List.length_cons] at h1 ⊢; omega)
            (by simp only [List.length_cons] at h2 ⊢; omega)
        · exact ih f2 smalls (g :: larges) _ _
            (by simp only [List.length_cons] at h1 ⊢; omega)
            (by simp only [List.length_cons] at h2 ⊢; omega)

/-! ## Association-list map lemmas -/

theorem mem_setEntry (c : Chains) (k : String) (v : PrefixEntry)
    (kv : String × PrefixEntry) (h : kv ∈ setEntry c k v) : kv ∈ c ∨ kv = (k, v) := by
  unfold setEntry at h
  split at h
  · rcases List.mem_map.mp h with ⟨p, hp, he⟩
    by_cases hk : p.1 = k
    · right; rw [if_pos hk] at he; exact he.symm
    · left; rw [if_neg hk] at he; exact he ▸ hp
  · rcases List.mem_append.mp h with h | h
    · exact Or.inl h
    · right; simpa using h

theorem find_map_set (c : Chains) (k : String) (v : PrefixEntry)
    (hany : c.any (fun p => p.1 = k) = true) :
    (c.map (fun p => if p.1 = k then (k, v) else p)).find? (fun p => p.1 = k)
      = some (k, v) := by
  induction c with
  | nil => simp at hany
  | cons p rest ih =>
    by_cases hk : p.1 = k
    · simp [List.find?, hk]
    · have h2 : rest.any (fun p => p.1 = k) = true := by
        simpa [List.any_cons, hk] using hany
      simp [List.find?, hk, ih h2]

theorem find_append_single (c : Chains) (k : String) (v : PrefixEntry)
    (hnone : ¬ c.any (fun p => p.1 = k) = true) :
    (c ++ [(k, v)]).find? (fun p => p.1 = k) = some (k, v) := by
  induction c with
  | nil => simp [List.find?]
  | cons p rest ih =>
    simp only [List.any_cons, Bool.or_eq_true, decide_eq_true_eq] at hnone
    push_neg at hnone
    simp [List.find?, hnone.1, ih (by simpa using hnone.2)]

theorem findEntry_setEntry (c : Chains) (k : String) (v : PrefixEntry) :
    findEntry (setEntry c k v) k = some v := by
  unfold findEntry setEntry
  by_cases hany : c.any (fun p => p.1 = k) = true
  · rw [if_pos hany, find_map_set c k v hany]; rfl
  · rw [if_neg hany, find_append_single c k v hany]; rfl

theorem findEntry_mem (c : Chains) (k : String) (e : PrefixEntry)
    (h : findEntry c k = some e) : (k, e) ∈ c := by
  unfold findEntry at h
  rcases Option.map_eq_some'.mp h with ⟨pr, hfind, hpr⟩
  have hm := List.mem_of_find?_eq_some hfind
  have hp := List.find?_some hfind
  simp only [decide_eq_true_eq] at hp
  have : pr = (k, e) := by cases pr; simp_all
  exact this ▸ hm

/-! ## Lemmas about `updateSuffixes` -/

theorem updateSuffixes_sum (l : List SuffixEntry) (w : String) (wt : ℚ) :
    ((updateSuffixes l w wt).map SuffixEntry.weight).sum
      = (l.map SuffixEntry.weight).sum + wt := by
  induction l with
  | nil => simp [updateSuffixes]
  | cons s rest ih =>
    by_cases h : s.word = w
    · simp [updateSuffixes, h]; ring
    · simp [updateSuffixes, h, ih]; ring

theorem updateSuffixes_ne_nil (l : List SuffixEntry) (w : String) (wt : ℚ) :
    ¬ updateSuffixes l w wt = [] := by
  cases l with
  | nil => simp [updateSuffixes]
  | cons s rest => by_cases h : s.word = w <;> simp [updateSuffixes, h]

theorem updateSuffixes_length_ge (l : List SuffixEntry) (w : String) (wt : ℚ) :
    l.length ≤ (updateSuffixes l w wt).length := by
  induction l with
  | nil => simp [updateSuffixes]
  | cons s rest ih =>
    by_cases h : s.word = w <;> simp [updateSuffixes, h]
    omega

/-! ## Concrete evaluations shared by several theorems -/

theorem chainAB_eval :
    chainAB = [("p", ⟨"p", [⟨"a", 1⟩, ⟨"b", 1⟩], some [⟨"a", 0, 1⟩, ⟨"b", 1, 1⟩], 2⟩)] := by
  norm_num [chainAB, addPrefix, findEntry, updateSuffixes, setEntry, buildAliasTable,
    aliasLoop, scaledWeightsOf, smallStack, largeStack, initTable,
    List.getD, List.find?, show List.range 2 = [0, 1] from rfl,
    show ¬ ("a" : String) = "b" from by decide]

theorem bugTable_eval :
    buildAliasTable bugSuffixes =
      [⟨"a", 0, 3/2⟩, ⟨"b", 0, 3/2⟩, ⟨"c", 1, 1/2⟩, ⟨"d", 1, 1/2⟩] := by
  norm_num [buildAliasTable, aliasLoop, bugSuffixes, scaledWeightsOf, smallStack,
    largeStack, initTable, show List.range 4 = [0,1,2,3] from rfl,
    List.getD, List.set, AliasEntry.mk.injEq]

theorem bugGrid_eval :
    aliasGrid (buildAliasTable bugSuffixes) =
      [Except.ok "a", Except.ok "a", Except.ok "b", Except.ok "b",
       Except.ok "c", Except.ok "b", Except.ok "d", Except.ok "b"] := by
  rw [bugTable_eval]
  norm_num [aliasGrid, sampleFromAliasTable, show List.range 4 = [0,1,2,3] from rfl,
    Int.reduceToNat, List.getElem?_cons_zero, List.getElem?_cons_succ]

theorem lineChains_eval :
    lineChains = [("a", ⟨"a", [⟨"b", 1⟩], none, 1⟩), ("b", ⟨"b", [⟨"c", 1⟩], none, 1⟩)] := by
  norm_num [lineChains, addDataToMarkovStore, tokenize, addPrefix, findEntry, setEntry,
    updateSuffixes, List.find?, show List.range 2 = [0, 1] from rfl,
    show jsSplitSpace "a b c" = ["a", "b", "c"] from rfl,
    show ¬ ("a" : String) = "" from by decide, show ¬ ("b" : String) = "" from by decide,
    show ¬ ("c" : String) = "" from by decide, show ¬ ("a" : String) = "b" from by decide,
    show jsJoinSpace ["a"] = "a" from rfl, show jsJoinSpace ["b"] = "b" from rfl,
    List.getD]

set_option maxRecDepth 4000 in
theorem generate_lineChains_eval :
    generate lineChains "a" 3 rngZero = Except.ok ["a", "b"] := by
  rw [lineChains_eval]
  norm_num [generate, genLoop, rngZero, getNext, findEntry, List.find?, fallbackSelect,
    show jsSplitSpace "a" = ["a"] from rfl,
    show ¬ ("a b" : String) = "a" from by decide, show ¬ ("a b" : String) = "b" from by decide,
    show ¬ ("a" : String) = "a b" from by decide, show ¬ ("b" : String) = "a b" from by decide,
    show jsJoinSpace ["a", "b"] = "a b" from rfl]

set_option maxRecDepth 4000 in
theorem generateSpec_lineChains_eval :
    generateSpec 1 lineChains "a" 3 rngZero = Except.ok ["a", "b", "c"] := by
  rw [lineChains_eval]
  norm_num [generateSpec, genLoop, rngZero, getNext, findEntry, List.find?, fallbackSelect,
    show jsSplitSpace "a" = ["a"] from rfl,
    show ¬ ("b" : String) = "a" from by decide, show ¬ ("c" : String) = "a" from by decide,
    show ¬ ("c" : String) = "b" from by decide, show ¬ ("a" : String) = "b" from by decide,
    show ¬ ("a" : String) = "c" from by decide, show ¬ ("b" : String) = "c" from by decide,
    show jsJoinSpace ["b"] = "b" from rfl, show jsJoinSpace ["c"] = "c" from rfl]

/-! ## Helper lemmas about the entry built by `addPrefix` -/

/-- Fields of the final `if` expression of `addPrefix`: whatever branch is
taken, the alias table is rebuilt from the current suffix list whenever
that list has more than one element. -/
theorem aliasTable_if_spec (a : String) (l : List SuffixEntry)
    (o : Option (List AliasEntry)) (tw : ℚ) :
    1 < (if 1 < l.length
          then (⟨a, l, some (buildAliasTable l), tw⟩ : PrefixEntry)
          else ⟨a, l, o, tw⟩).suffixes.length →
    (if 1 < l.length
      then (⟨a, l, some (buildAliasTable l), tw⟩ : PrefixEntry)
      else ⟨a, l, o, tw⟩).aliasTable
      = some (buildAliasTable
          (if 1 < l.length
            then (⟨a, l, some (buildAliasTable l), tw⟩ : PrefixEntry)
            else ⟨a, l, o, tw⟩).suffixes) := by
  by_cases h : 1 < l.length <;> simp [h]

/-- The final `if` of `addPrefix` leaves the suffix list and the total
weight untouched. -/
theorem if_entry_fields (a : String) (l : List SuffixEntry)
    (o : Option (List AliasEntry)) (tw : ℚ) :
    ((if 1 < l.length then (⟨a, l, some (buildAliasTable l), tw⟩ : PrefixEntry)
       else ⟨a, l, o, tw⟩).suffixes = l) ∧
    ((if 1 < l.length then (⟨a, l, some (buildAliasTable l), tw⟩ : PrefixEntry)
       else ⟨a, l, o, tw⟩).totalWeight = tw) := by
  by_cases h : 1 < l.length <;> simp [h]

/-- Any run of the generation loop that returns normally appends at most
`fuel` words to the running result. -/
theorem genLoop_ok_length (c : Chains) (rng : Nat → ℚ × ℚ) (w : Nat) :
    ∀ (fuel i : Nat) (result : List String) (cur : String) (out : List String),
      genLoop c rng w fuel i result cur = Except.ok out →
      out.length ≤ result.length + fuel := by
  intro fuel
  induction fuel with
  | zero =>
    intro i result cur out h
    simp only [genLoop] at h
    obtain rfl := Except.ok.inj h
    omega
  | succ f ih =>
    intro i result cur out h
    simp only [genLoop] at h
    split at h
    · exact absurd h (by simp)
    · obtain rfl := Except.ok.inj h; omega
    · have := ih (i + 1) _ _ out h
      simp only [List.length_append, List.length_cons, List.length_nil] at this ⊢
      omega

/-! ## Claim C1 -/

/-- C1 (code defect): on suffix weights 3, 3, 1, 1 the alias table the code
builds stores the initial scaled weights as thresholds and never writes the
redistributed residuals back, so cell 0 keeps threshold 3/2 outside [0,1],
and the exact sampling distribution gives word `a` probability 1/4 and word
`b` probability 1/2 instead of the categorical 3/8 each; the operational
grid of the 8 equiprobable draw outcomes shows the same counts (2 of 8 for
`a`).  All intermediate values are small dyadic rationals, so IEEE-754
evaluation of the source is exact and the error of 1/8 cannot be
floating-point noise. -/
theorem c1_alias_method_bug :
    buildAliasTable bugSuffixes =
      [⟨"a", 0, 3/2⟩, ⟨"b", 0, 3/2⟩, ⟨"c", 1, 1/2⟩, ⟨"d", 1, 1/2⟩] ∧
    ¬ ((buildAliasTable bugSuffixes).getD 0 default).weight ≤ 1 ∧
    sampleProb (buildAliasTable bugSuffixes) "a" = 1/4 ∧
    sampleProb (buildAliasTable bugSuffixes) "b" = 1/2 ∧
    ¬ sampleProb (buildAliasTable bugSuffixes) "a" = 3/8 ∧
    ((aliasGrid (buildAliasTable bugSuffixes)).countP
      (fun r => match r with | Except.ok w => w = "a" | _ => false)) = 2 ∧
    (aliasGrid (buildAliasTable bugSuffixes)).length = 8 := by
  have h1 : ¬ ("b" : String) = "a" := by decide
  have h2 : ¬ ("c" : String) = "a" := by decide
  have h3 : ¬ ("d" : String) = "a" := by decide
  have h4 : ¬ ("a" : String) = "b" := by decide
  have h5 : ¬ ("c" : String) = "b" := by decide
  have h6 : ¬ ("d" : String) = "b" := by decide
  refine ⟨bugTable_eval, ?_, ?_, ?_, ?_, ?_, ?_⟩
  · rw [bugTable_eval]; norm_num [List.getD]
  · rw [bugTable_eval]; norm_num [sampleProb, cellMass, clamp01, List.getD, h1, h2, h3]
  · rw [bugTable_eval]; norm_num [sampleProb, cellMass, clamp01, List.getD, h4, h5, h6]
  · rw [bugTable_eval]; norm_num [sampleProb, cellMass, clamp01, List.getD, h1, h2, h3]
  · rw [bugGrid_eval]; decide
  · rw [bugGrid_eval]; rfl

/-! ## Claim C2 -/

/-- C2 counterexample: the file operations `save` performs are not the
write-to-temp-then-rename sequence the specification describes; on a
concrete store they differ. -/
theorem c2_no_atomic_rename_cx :
    ¬ saveOps "s" chainAB = saveOpsSpec "s" chainAB := by
  simp [saveOps, saveOpsSpec]

/-- C2 amended: when the debounced timer fires, `save` performs exactly one
direct `writeFile` of the serialized map to the store path; no rename (and
no temporary file) is ever involved. -/
theorem c2_save_direct_write (path : String) (c : Chains) :
    saveOps path c = [FsOp.write path (storeToJson c)] ∧
    (saveOps path c).all (fun op => !op.isRename) = true := by
  simp [saveOps, FsOp.isRename]

/-! ## Claim C3 -/

/-- C3 counterexample: immediately after the second insert on prefix `p`,
before any sampling, the stored entry already carries a built alias
table — the build is not deferred to the first `getNext`. -/
theorem c3_eager_build_cx :
    (findEntry chainAB "p").map (fun e => e.aliasTable) =
      some (some [⟨"a", 0, 1⟩, ⟨"b", 1, 1⟩]) := by
  rw [chainAB_eval]
  simp [findEntry, List.find?]

/-- C3 amended: `addPrefix` itself eagerly rebuilds the alias table of the
mutated entry whenever its suffix list has more than one element (and
`getNext`, a pure read, never rebuilds anything). -/
theorem c3_eager_build (c : Chains) (p s : String) (w : ℚ) :
    (findEntry (addPrefix c p s w) p).isSome = true ∧
    ∀ e, findEntry (addPrefix c p s w) p = some e →
      1 < e.suffixes.length → e.aliasTable = some (buildAliasTable e.suffixes) := by
  constructor
  · unfold addPrefix
    rw [findEntry_setEntry]; rfl
  · intro e he hlen
    simp only [addPrefix] at he
    rw [findEntry_setEntry] at he
    obtain rfl := Option.some.inj he
    exact aliasTable_if_spec _ _ _ _ hlen

/-- C3 witness: the amended statement applied to the concrete two-insert
store `chainAB`. -/
theorem c3_eager_build_witness :
    findEntry chainAB "p" =
      some ⟨"p", [⟨"a", 1⟩, ⟨"b", 1⟩], some [⟨"a", 0, 1⟩, ⟨"b", 1, 1⟩], 2⟩ ∧
    (1 : Nat) < 2 ∧
    (some [⟨"a", 0, 1⟩, ⟨"b", 1, 1⟩] : Option (List AliasEntry)) =
      some (buildAliasTable [⟨"a", 1⟩, ⟨"b", 1⟩]) := by
  have hfind : findEntry (addPrefix (addPrefix [] "p" "a" 1) "p" "b" 1) "p" =
      some ⟨"p", [⟨"a", 1⟩, ⟨"b", 1⟩], some [⟨"a", 0, 1⟩, ⟨"b", 1, 1⟩], 2⟩ := by
    rw [show addPrefix (addPrefix [] "p" "a" 1) "p" "b" 1 = chainAB from rfl, chainAB_eval]
    simp [findEntry, List.find?]
  exact ⟨hfind, by norm_num,
    (c3_eager_build (addPrefix [] "p" "a" 1) "p" "b" 1).2 _ hfind (by norm_num)⟩

/-! ## Claim C4 -/

/-- C4 counterexample: the snapshot `save` serializes for the two-insert
store carries an `aliasTable` member inside the entry for prefix `p`,
so alias tables are written to disk. -/
theorem c4_alias_in_snapshot_cx :
    (getKey "p" (storeToJson chainAB)).map (hasKey "aliasTable") = some true := by
  rw [chainAB_eval]
  simp [storeToJson, getKey, entryToJson, hasKey, List.find?]

/-- C4 amended: a serialized entry carries the `aliasTable` member exactly
when the in-memory entry has one, and `load` installs parsed entries
verbatim — alias tables included — with no re-derivation. -/
theorem c4_snapshot_and_load (e : PrefixEntry) (k : String) :
    hasKey "aliasTable" (entryToJson e) = e.aliasTable.isSome ∧
    findEntry (loadChains [(k, e)]) k = some e := by
  constructor
  · cases h : e.aliasTable <;>
      simp [entryToJson, hasKey, h,
        show ¬ ("prefix" : String) = "aliasTable" from by decide,
        show ¬ ("suffixes" : String) = "aliasTable" from by decide,
        show ¬ ("totalWeight" : String) = "aliasTable" from by decide]
  · show findEntry (setEntry [] k e) k = some e
    exact findEntry_setEntry [] k e

/-! ## Claim C5 -/

/-- C5 counterexample: on the store trained with `stateSize = 1` on
`a b c`, generation from seed `a` stops after `b` because the next lookup
key is the two-word join `a b` rather than the single last token; the
generation that follows the specification (window = configured state
size 1) continues to `c`. -/
theorem c5_window_ignores_state_size_cx :
    generate lineChains "a" 3 rngZero = Except.ok ["a", "b"] ∧
    generateSpec 1 lineChains "a" 3 rngZero = Except.ok ["a", "b", "c"] ∧
    ¬ generate lineChains "a" 3 rngZero = generateSpec 1 lineChains "a" 3 rngZero := by
  refine ⟨generate_lineChains_eval, generateSpec_lineChains_eval, ?_⟩
  rw [generate_lineChains_eval, generateSpec_lineChains_eval]
  simp

/-- C5 amended: `generate` forms every next lookup prefix from the last
two output tokens regardless of the configured state size, and any
normally-returning generation appends at most `maxLen` tokens to the
seed. -/
theorem c5_window_two_bounded (c : Chains) (p : String) (maxLen : Nat)
    (rng : Nat → ℚ × ℚ) :
    generate c p maxLen rng = generateSpec 2 c p maxLen rng ∧
    ∀ out, generate c p maxLen rng = Except.ok out →
      out.length ≤ (jsSplitSpace p).length + maxLen := by
  constructor
  · rfl
  · intro out h
    exact genLoop_ok_length c rng 2 maxLen 0 (jsSplitSpace p) p out h

/-- C5 witness: the amended bound applied to the concrete generation on
`lineChains`. -/
theorem c5_window_two_bounded_witness :
    generate lineChains "a" 3 rngZero = Except.ok ["a", "b"] ∧
    (["a", "b"] : List String).length ≤ (jsSplitSpace "a").length + 3 :=
  ⟨generate_lineChains_eval,
    (c5_window_two_bounded lineChains "a" 3 rngZero).2 ["a", "b"] generate_lineChains_eval⟩

/-! ## Claim C6 -/

/-- C6 counterexample: inserting with weight 0 — which fails the claimed
`weight ≥ 1` precondition — raises no error and leaves a suffix entry of
weight 0 in the store. -/
theorem c6_weight_zero_persists_cx :
    addPrefix [] "p" "s" 0 = [("p", ⟨"p", [⟨"s", 0⟩], none, 0⟩)] ∧
    ¬ (1 : ℚ) ≤ 0 := by
  constructor
  · norm_num [addPrefix, findEntry, setEntry, updateSuffixes, List.find?]
  · norm_num

/-- C6 amended: `addPrefix` validates nothing: on a fresh store any weight
(zero and negative included) and any prefix (the empty string included)
are accepted and stored exactly as given, with no error path. -/
theorem c6_no_validation (p s : String) (w : ℚ) :
    addPrefix [] p s w = [(p, ⟨p, [⟨s, w⟩], none, w⟩)] := by
  simp [addPrefix, findEntry, setEntry, updateSuffixes, List.find?]

/-! ## Claim C7 -/

/-- C7: every store operation preserves the invariant that each entry
stores as `totalWeight` exactly the sum of its suffix weights: `addPrefix`
(with duplicate-token merging), `clear`, and `removePrefix`. -/
theorem c7_total_weight_invariant (c : Chains) (p s : String) (w : ℚ)
    (h : storeWf c) :
    storeWf (addPrefix c p s w) ∧ storeWf (clearChains c) ∧ storeWf (removeEntry c p) := by
  refine ⟨?_, ?_, ?_⟩
  · intro kv hkv
    simp only [addPrefix] at hkv
    rcases mem_setEntry _ _ _ _ hkv with hm | rfl
    · exact h kv hm
    · show entryWf _
      unfold entryWf
      rw [(if_entry_fields _ _ _ _).1, (if_entry_fields _ _ _ _).2, updateSuffixes_sum]
      rcases hfe : findEntry c p with _ | e
      · simp only [hfe]
        simp
      · simp only [hfe]
        have := h (p, e) (findEntry_mem c p e hfe)
        unfold entryWf at this
        rw [this]
  · intro kv hkv
    simp [clearChains] at hkv
  · intro kv hkv
    exact h kv (List.mem_of_mem_filter hkv)

/-- C7 witness: the invariant preservation applied to a concrete
one-entry store satisfying the invariant. -/
theorem c7_total_weight_invariant_witness :
    storeWf ([("x", ⟨"x", [⟨"y", 2⟩], none, 2⟩)] : Chains) ∧
    (storeWf (addPrefix [("x", ⟨"x", [⟨"y", 2⟩], none, 2⟩)] "p" "s" 1) ∧
      storeWf (clearChains [("x", ⟨"x", [⟨"y", 2⟩], none, 2⟩)]) ∧
      storeWf (removeEntry [("x", ⟨"x", [⟨"y", 2⟩], none, 2⟩)] "p")) := by
  have hwf : storeWf ([("x", ⟨"x", [⟨"y", 2⟩], none, 2⟩)] : Chains) := by
    intro kv hkv
    simp only [List.mem_singleton] at hkv
    subst hkv
    norm_num [entryWf]
  exact ⟨hwf, c7_total_weight_invariant _ "p" "s" 1 hwf⟩

/-! ## Claim C8 -/

/-- C8 counterexample: a snapshot file whose content is the JSON text
`"garbage"` — the corrupt-snapshot scenario of the specification — parses
to a JSON string, so `load` clears the map and installs the seven
`Object.entries` character bindings: the store does not start empty and
the prefix count is 7, not 0. -/
theorem c8_garbage_load_cx :
    prefixCountAfterLoad (LoadInput.parsed (JVal.str "garbage")) = 7 ∧
    ¬ prefixCountAfterLoad (LoadInput.parsed (JVal.str "garbage")) = 0 := by
  constructor <;> decide

/-- C8 amended: only when reading or JSON-parsing throws does the catch
leave the previous chains in place (empty on a first load, with the file
untouched); content that parses as JSON of the wrong shape is installed
verbatim, so the store need not be empty. -/
theorem c8_load_failure_keeps_old (old : List (String × JVal)) :
    loadChainsRaw old LoadInput.ioError = old ∧
    loadChainsRaw old LoadInput.noFile = old ∧
    loadChainsRaw [] LoadInput.ioError = [] :=
  ⟨rfl, rfl, rfl⟩

/-! ## Structure of the built alias table -/

/-- Redirecting one alias in the table preserves every cell word. -/
theorem set_alias_word (t : List AliasEntry) (a g : Nat) (ha : a < t.length) :
    ∀ i, ((t.set a { t.getD a default with aliasIdx := g }).get? i).map AliasEntry.word
      = (t.get? i).map AliasEntry.word := by
  intro i
  by_cases hia : a = i
  · subst hia
    rw [List.get?_set_eq_of_lt _ ha, List.get?_eq_get ha]
    simp [List.getD, List.get?_eq_get ha, List.getElem?_eq_getElem ha]
  · rw [List.get?_set_ne _ _ hia]

theorem smallStack_lt (s : List SuffixEntry) : ∀ x ∈ smallStack s, x < s.length := by
  intro x hx
  simp only [smallStack, List.mem_reverse, List.mem_filter, List.mem_range] at hx
  exact hx.1

theorem largeStack_lt (s : List SuffixEntry) : ∀ x ∈ largeStack s, x < s.length := by
  intro x hx
  simp only [largeStack, List.mem_reverse, List.mem_filter, List.mem_range] at hx
  exact hx.1

theorem initTable_length (s : List SuffixEntry) : (initTable s).length = s.length := by
  simp [initTable]

theorem initTable_get?_word (s : List SuffixEntry) (i : Nat) :
    ((initTable s).get? i).map AliasEntry.word = (s.get? i).map SuffixEntry.word := by
  unfold initTable
  rw [List.get?_map]
  by_cases h : i < s.length
  · rw [List.get?_range h, List.get?_eq_get h]
    simp [List.getD, List.get?_eq_get h, List.getElem?_eq_getElem h]
  · rw [List.get?_eq_none.mpr (by simpa using Nat.le_of_not_lt h),
      List.get?_eq_none.mpr (Nat.le_of_not_lt h)]
    rfl

theorem initTable_alias_lt (s : List SuffixEntry) :
    ∀ e ∈ initTable s, e.aliasIdx < s.length := by
  intro e he
  simp only [initTable, List.mem_map, List.mem_range] at he
  obtain ⟨i, hi, rfl⟩ := he
  exact hi

/-- The redistribution loop preserves the table length, every cell word,
and (given in-range stacks) keeps every alias index in range. -/
theorem aliasLoop_preserves (f : Nat) :
    ∀ (s l : List Nat) (sw : List ℚ) (t : List AliasEntry),
      (∀ x ∈ s, x < t.length) → (∀ x ∈ l, x < t.length) →
      (aliasLoop f s l sw t).length = t.length ∧
      (∀ i, ((aliasLoop f s l sw t).get? i).map AliasEntry.word
          = (t.get? i).map AliasEntry.word) ∧
      ((∀ e ∈ t, e.aliasIdx < t.length) →
        ∀ e ∈ aliasLoop f s l sw t, e.aliasIdx < t.length) := by
  induction f with
  | zero =>
    intro s l sw t _ _
    match s, l with
    | [], _ => exact ⟨rfl, fun i => rfl, fun h => h⟩
    | _ :: _, [] => exact ⟨rfl, fun i => rfl, fun h => h⟩
    | _ :: _, _ :: _ => exact ⟨rfl, fun i => rfl, fun h => h⟩
  | succ f ih =>
    intro s l sw t hs hl
    match s, l with
    | [], _ => exact ⟨rfl, fun i => rfl, fun h => h⟩
    | _ :: _, [] => exact ⟨rfl, fun i => rfl, fun h => h⟩
    | a :: smalls, g :: larges =>
      have ha : a < t.length := hs a (List.mem_cons_self a smalls)
      have hg : g < t.length := hl g (List.mem_cons_self g larges)
      have hlen' : (t.set a { t.getD a default with aliasIdx := g }).length = t.length :=
        List.length_set t a _
      have hword' := set_alias_word t a g ha
      have hmem' : ∀ e ∈ t.set a { t.getD a default with aliasIdx := g },
          e ∈ t ∨ e = { t.getD a default with aliasIdx := g } :=
        fun e he => List.mem_or_eq_of_mem_set he
      simp only [aliasLoop]
      split
      · have hs' : ∀ x ∈ g :: smalls,
            x < (t.set a { t.getD a default with aliasIdx := g }).length := by
          intro x hx
          rw [hlen']
          rcases List.mem_cons.mp hx with rfl | hx
          · exact hg
          · exact hs x (List.mem_cons_of_mem _ hx)
        have hl' : ∀ x ∈ larges,
            x < (t.set a { t.getD a default with aliasIdx := g }).length := by
          intro x hx
          rw [hlen']
          exact hl x (List.mem_cons_of_mem _ hx)
        obtain ⟨r1, r2, r3⟩ := ih (g :: smalls) larges _ _ hs' hl'
        refine ⟨r1.trans hlen', fun i => (r2 i).trans (hword' i), ?_⟩
        intro hidx e he
        have hidx' : ∀ e ∈ t.set a { t.getD a default with aliasIdx := g },
            e.aliasIdx < (t.set a { t.getD a default with aliasIdx := g }).length := by
          intro e he
          rw [hlen']
          rcases hmem' e he with he | rfl
          · exact hidx e he
          · exact hg
        have := r3 hidx' e he
        rwa [hlen'] at this
      · have hs' : ∀ x ∈ smalls,
            x < (t.set a { t.getD a default with aliasIdx := g }).length := by
          intro x hx
          rw [hlen']
          exact hs x (List.mem_cons_of_mem _ hx)
        have hl' : ∀ x ∈ g :: larges,
            x < (t.set a { t.getD a default with aliasIdx := g }).length := by
          intro x hx
          rw [hlen']
          rcases List.mem_cons.mp hx with rfl | hx
          · exact hg
          · exact hl x (List.mem_cons_of_mem _ hx)
        obtain ⟨r1, r2, r3⟩ := ih smalls (g :: larges) _ _ hs' hl'
        refine ⟨r1.trans hlen', fun i => (r2 i).trans (hword' i), ?_⟩
        intro hidx e he
        have hidx' : ∀ e ∈ t.set a { t.getD a default with aliasIdx := g },
            e.aliasIdx < (t.set a { t.getD a default with aliasIdx := g }).length := by
          intro e he
          rw [hlen']
          rcases hmem' e he with he | rfl
          · exact hidx e he
          · exact hg
        have := r3 hidx' e he
        rwa [hlen'] at this

/-- The built table has the length of the suffix list, carries the suffix
words positionally, and every alias index is in range. -/
theorem buildAliasTable_spec (s : List SuffixEntry) :
    (buildAliasTable s).length = s.length ∧
    (∀ i, ((buildAliasTable s).get? i).map AliasEntry.word
        = (s.get? i).map SuffixEntry.word) ∧
    (∀ e ∈ buildAliasTable s, e.aliasIdx < s.length) := by
  by_cases h : s.length = 0
  · have hnil : s = [] := List.length_eq_zero.mp h
    subst hnil
    exact ⟨rfl, fun i => rfl, by simp [buildAliasTable]⟩
  · have hsb : ∀ x ∈ smallStack s, x < (initTable s).length := by
      rw [initTable_length]; exact smallStack_lt s
    have hlb : ∀ x ∈ largeStack s, x < (initTable s).length := by
      rw [initTable_length]; exact largeStack_lt s
    obtain ⟨r1, r2, r3⟩ := aliasLoop_preserves
      ((smallStack s).length + (largeStack s).length)
      (smallStack s) (largeStack s) (scaledWeightsOf s) (initTable s) hsb hlb
    have hini : ∀ e ∈ initTable s, e.aliasIdx < (initTable s).length := by
      rw [initTable_length]; exact initTable_alias_lt s
    refine ⟨?_, ?_, ?_⟩
    · rw [buildAliasTable, if_neg h, r1, initTable_length]
    · intro i
      rw [buildAliasTable, if_neg h, r2 i, initTable_get?_word]
    · intro e he
      rw [buildAliasTable, if_neg h] at he
      have := r3 hini e he
      rwa [initTable_length] at this

/-- Cell words of the built table are exactly the suffix words, in
order. -/
theorem buildAliasTable_words (s : List SuffixEntry) :
    (buildAliasTable s).map AliasEntry.word = s.map SuffixEntry.word := by
  apply List.ext_get?
  intro i
  rw [List.get?_map, List.get?_map]
  exact (buildAliasTable_spec s).2.1 i

/-- The fallback selection loop only ever returns a recorded suffix
word. -/
theorem fallbackSelect_mem :
    ∀ (l : List SuffixEntry) (r : ℚ) (w : String),
      fallbackSelect l r = some w → w ∈ l.map SuffixEntry.word := by
  intro l
  induction l with
  | nil => intro r w h; simp [fallbackSelect] at h
  | cons s rest ih =>
    intro r w h
    simp only [fallbackSelect] at h
    split at h
    · obtain rfl := Option.some.inj h
      simp
    · have := ih _ _ h
      simp [this]

/-- On a nonempty table with in-range alias indices, sampling with uniform
draws never throws and returns one of the cell words. -/
theorem sampleFromAliasTable_ok (t : List AliasEntry) (hne : ¬ t.length = 0)
    (halias : ∀ e ∈ t, e.aliasIdx < t.length) (u1 u2 : ℚ)
    (h0 : 0 ≤ u1) (h1 : u1 < 1) :
    ∃ w, sampleFromAliasTable t u1 u2 = Except.ok w ∧ w ∈ t.map AliasEntry.word := by
  have hn : 0 < t.length := Nat.pos_of_ne_zero hne
  have hfl0 : 0 ≤ Int.floor (u1 * (t.length : ℚ)) := by
    apply Int.le_floor.mpr
    push_cast
    exact mul_nonneg h0 (by positivity)
  have hflt : Int.floor (u1 * (t.length : ℚ)) < (t.length : ℤ) := by
    apply Int.floor_lt.mpr
    push_cast
    calc u1 * (t.length : ℚ) < 1 * (t.length : ℚ) := by
          apply mul_lt_mul_of_pos_right h1
          exact_mod_cast hn
    _ = (t.length : ℚ) := one_mul _
  have hilt : (Int.floor (u1 * (t.length : ℚ))).toNat < t.length := by omega
  have hget : t.get? (Int.floor (u1 * (t.length : ℚ))).toNat
      = some (t.get ⟨_, hilt⟩) := List.get?_eq_get hilt
  unfold sampleFromAliasTable
  rw [if_neg hne]
  simp only [hget]
  by_cases hu : u2 < (t.get ⟨_, hilt⟩).weight
  · rw [if_pos hu]
    exact ⟨_, rfl, List.mem_map_of_mem AliasEntry.word (t.get_mem _ _)⟩
  · rw [if_neg hu]
    have hidx : (t.get ⟨_, hilt⟩).aliasIdx < t.length :=
      halias _ (t.get_mem _ _)
    have hget2 : t.get? (t.get ⟨_, hilt⟩).aliasIdx = some (t.get ⟨_, hidx⟩) :=
      List.get?_eq_get hidx
    simp only [hget2]
    exact ⟨_, rfl, List.mem_map_of_mem AliasEntry.word (t.get_mem _ _)⟩

/-! ## The structural invariant of reachable stores -/

/-- The final `if` of `addPrefix` establishes `entryInv`, provided the old
alias table was absent whenever the merged suffix list is still short. -/
theorem entryInv_if (a : String) (l : List SuffixEntry)
    (o : Option (List AliasEntry)) (tw : ℚ)
    (hnil : ¬ l = []) (ho : ¬ 1 < l.length → o = none) :
    entryInv (if 1 < l.length then (⟨a, l, some (buildAliasTable l), tw⟩ : PrefixEntry)
      else ⟨a, l, o, tw⟩) := by
  by_cases h : 1 < l.length
  · rw [if_pos h]
    exact ⟨hnil, by simp [h]⟩
  · rw [if_neg h]
    exact ⟨hnil, by simp [h, ho h]⟩

/-- Every store built from the empty store through `addPrefix` satisfies
`storeInv`: nonempty suffix lists, and an alias table that is present, and
current, exactly for entries with at least two suffixes. -/
theorem reachable_storeInv (c : Chains) (h : Reachable c) : storeInv c := by
  induction h with
  | empty => intro kv hkv; simp at hkv
  | step c p s w hw hr ih =>
    intro kv hkv
    simp only [addPrefix] at hkv
    rcases mem_setEntry _ _ _ _ hkv with hm | rfl
    · exact ih kv hm
    · show entryInv _
      refine entryInv_if _ _ _ _ (updateSuffixes_ne_nil _ _ _) ?_
      intro hnlt
      rcases hfe : findEntry c p with _ | e
      · simp only [hfe]
      · simp only [hfe] at hnlt ⊢
        have hinv := ih (p, e) (findEntry_mem c p e hfe)
        have hle := updateSuffixes_length_ge e.suffixes s w
        have hns : ¬ 1 < e.suffixes.length := by omega
        rw [hinv.2, if_neg hns]

/-- `chainAB` is reachable through weight-1 inserts. -/
theorem reachable_chainAB : Reachable chainAB :=
  Reachable.step _ "p" "b" 1 (by norm_num)
    (Reachable.step _ "p" "a" 1 (by norm_num) Reachable.empty)

/-! ## Claim C9 -/

/-- C9: the advisory training lock protocol: with no lock file the lock is
created holding the caller PID; when the file exists and its recorded PID
is alive, acquisition fails leaving the file unchanged; when the recorded
PID is dead (or the content parses to no PID at all, making the liveness
probe throw), the stale lock is replaced by the caller PID and acquisition
succeeds.  The model is non-blocking by construction: each case returns
immediately. -/
theorem c9_training_lock (w : LockWorld) :
    (w.lockContent = none →
      acquireTrainingLock w = (true, some (toString w.myPid))) ∧
    (∀ content pid, w.lockContent = some content → jsParseInt content = some pid →
      w.alive pid = true → acquireTrainingLock w = (false, some content)) ∧
    (∀ content pid, w.lockContent = some content → jsParseInt content = some pid →
      w.alive pid = false → acquireTrainingLock w = (true, some (toString w.myPid))) ∧
    (∀ content, w.lockContent = some content → jsParseInt content = none →
      acquireTrainingLock w = (true, some (toString w.myPid))) := by
  refine ⟨?_, ?_, ?_, ?_⟩
  · intro h
    simp [acquireTrainingLock, h]
  · intro content pid h1 h2 h3
    simp [acquireTrainingLock, h1, h2, h3]
  · intro content pid h1 h2 h3
    simp [acquireTrainingLock, h1, h2, h3]
  · intro content h1 h2
    simp [acquireTrainingLock, h1, h2]

/-- C9 witness: contention against a live PID 42 recorded in the lock. -/
theorem c9_training_lock_witness :
    ((⟨some "42", fun n => decide (n = 42), 7⟩ : LockWorld).lockContent = some "42") ∧
    jsParseInt "42" = some 42 ∧
    ((fun n => decide (n = 42)) 42 = true) ∧
    acquireTrainingLock ⟨some "42", fun n => decide (n = 42), 7⟩ = (false, some "42") := by
  refine ⟨rfl, by decide, by decide, ?_⟩
  exact (c9_training_lock _).2.1 "42" 42 rfl (by decide) (by decide)

/-! ## Claim C10 -/

/-- C10: on any store built only through inserts of weight at least 1,
`getNext` with uniform draws never throws (in particular the
empty-alias-table branch is unreachable), returns `none` exactly for an
absent prefix (or one with an empty suffix list, which cannot occur), and
any returned word is one of the recorded suffix tokens of that prefix,
on the alias path and the fallback path alike. -/
theorem c10_getNext_total (c : Chains) (hr : Reachable c) (p : String) (u1 u2 : ℚ)
    (h10 : 0 ≤ u1) (h11 : u1 < 1) (h20 : 0 ≤ u2) (h21 : u2 < 1) :
    (∃ r, getNext c p u1 u2 = Except.ok r) ∧
    (getNext c p u1 u2 = Except.ok none ↔
      findEntry c p = none ∨ ∃ e, findEntry c p = some e ∧ e.suffixes = []) ∧
    (∀ w, getNext c p u1 u2 = Except.ok (some w) →
      ∃ e, findEntry c p = some e ∧ w ∈ e.suffixes.map SuffixEntry.word) := by
  have hinv := reachable_storeInv c hr
  rcases hfe : findEntry c p with _ | e
  · have hg : getNext c p u1 u2 = Except.ok none := by
      simp [getNext, hfe]
    refine ⟨⟨none, hg⟩, ?_, ?_⟩
    · simp [hg]
    · intro w hw
      rw [hg] at hw
      simp at hw
  · obtain ⟨hne, hat⟩ := hinv (p, e) (findEntry_mem c p e hfe)
    obtain ⟨epfx, esuf, eat, etw⟩ := e
    simp only at hne hat
    obtain ⟨s0, rest, hsuf⟩ : ∃ s0 rest, esuf = s0 :: rest := by
      cases hs : esuf with
      | nil => exact absurd hs hne
      | cons a b => exact ⟨a, b, rfl⟩
    subst hsuf
    have hmain : ∃ w, getNext c p u1 u2 = Except.ok (some w) ∧
        w ∈ (s0 :: rest).map SuffixEntry.word := by
      rcases hato : eat with _ | t
      · subst hato
        rcases hfb : fallbackSelect (s0 :: rest) (u1 * etw) with _ | w
        · refine ⟨s0.word, ?_, by simp⟩
          simp only [getNext, hfe, hfb]
        · refine ⟨w, ?_, fallbackSelect_mem _ _ _ hfb⟩
          simp only [getNext, hfe, hfb]
      · subst hato
        have ht2 : 1 < (s0 :: rest).length ∧ t = buildAliasTable (s0 :: rest) := by
          by_cases hl : 1 < (s0 :: rest).length
          · rw [if_pos hl] at hat
            exact ⟨hl, Option.some.inj hat⟩
          · rw [if_neg hl] at hat
            exact absurd hat (by simp)
        obtain ⟨hl2, rfl⟩ := ht2
        obtain ⟨slen, sword, salias⟩ := buildAliasTable_spec (s0 :: rest)
        have htne : ¬ (buildAliasTable (s0 :: rest)).length = 0 := by
          rw [slen]; omega
        have halias2 : ∀ x ∈ buildAliasTable (s0 :: rest),
            x.aliasIdx < (buildAliasTable (s0 :: rest)).length := by
          rw [slen]; exact salias
        obtain ⟨w, hw, hmem⟩ :=
          sampleFromAliasTable_ok _ htne halias2 u1 u2 h10 h11
        refine ⟨w, ?_, ?_⟩
        · simp only [getNext, hfe, hw, Except.map]
        · rwa [buildAliasTable_words] at hmem
    obtain ⟨w0, hw0, hmem0⟩ := hmain
    refine ⟨⟨some w0, hw0⟩, ?_, ?_⟩
    · constructor
      · intro hcontra
        rw [hw0] at hcontra
        exact absurd (Except.ok.inj hcontra) (by simp)
      · rintro (hcontra | ⟨e2, he2, hnil2⟩)
        · exact absurd hcontra (by simp)
        · obtain rfl := Option.some.inj he2
          exact absurd hnil2 (by simp)
    · intro w hw
      rw [hw0] at hw
      obtain rfl : w0 = w := Option.some.inj (Except.ok.inj hw)
      exact ⟨_, rfl, hmem0⟩

/-- C10 witness: the totality statement applied to the concrete reachable
store `chainAB` with both draws 0. -/
theorem c10_getNext_total_witness :
    Reachable chainAB ∧ (0 : ℚ) ≤ 0 ∧ (0 : ℚ) < 1 ∧
    ((∃ r, getNext chainAB "p" 0 0 = Except.ok r) ∧
      (getNext chainAB "p" 0 0 = Except.ok none ↔
        findEntry chainAB "p" = none ∨
          ∃ e, findEntry chainAB "p" = some e ∧ e.suffixes = []) ∧
      (∀ w, getNext chainAB "p" 0 0 = Except.ok (some w) →
        ∃ e, findEntry chainAB "p" = some e ∧ w ∈ e.suffixes.map SuffixEntry.word)) :=
  ⟨reachable_chainAB, le_refl 0, by norm_num,
    c10_getNext_total chainAB reachable_chainAB "p" 0 0 (le_refl 0) (by norm_num)
      (le_refl 0) (by norm_num)⟩

end MarkovSpec

